import Mathlib

/-!
Verification of the decentralized-net p2p storage/compute/blockchain node.

Shallow embedding of the Go sources: the blockchain engine (blocks,
transactions, proof-of-work mining, balance replay, mempool admission),
the wallet signature parsing, the framed Store/Compute stream handlers,
the CLI download path, and the (10,4) shard codec pipeline.

Machine integers: Go `int`/`int64` fields are modelled as `Int`; byte
strings as `List Nat` of values `< 256`; SHA-256 is implemented
executably over 32-bit words as `Nat` with explicit `% 2^32`.
-/

namespace DNet

/-! ## SHA-256 (bit-exact executable model, FIPS 180-4) -/

/-- Truncate to a 32-bit word. -/
def w32 (n : Nat) : Nat := n % 4294967296

/-- 32-bit addition. -/
def add32 (a b : Nat) : Nat := w32 (a + b)

/-- Rotate a 32-bit word right by `k`. -/
def rotr (k n : Nat) : Nat := w32 ((n >>> k) ||| (n <<< (32 - k)))

/-- The 64 SHA-256 round constants. -/
def sha256K : List Nat :=
  [1116352408, 1899447441, 3049323471, 3921009573, 961987163, 1508970993,
   2453635748, 2870763221, 3624381080, 310598401, 607225278, 1426881987,
   1925078388, 2162078206, 2614888103, 3248222580, 3835390401, 4022224774,
   264347078, 604807628, 770255983, 1249150122, 1555081692, 1996064986,
   2554220882, 2821834349, 2952996808, 3210313671, 3336571891, 3584528711,
   113926993, 338241895, 666307205, 773529912, 1294757372, 1396182291,
   1695183700, 1986661051, 2177026350, 2456956037, 2730485921, 2820302411,
   3259730800, 3345764771, 3516065817, 3600352804, 4094571909, 275423344,
   430227734, 506948616, 659060556, 883997877, 958139571, 1322822218,
   1537002063, 1747873779, 1955562222, 2024104815, 2227730452, 2361852424,
   2428436474, 2756734187, 3204031479, 3329325298]

/-- SHA-256 initial hash state. -/
def sha256Init : List Nat :=
  [1779033703, 3144134277, 1013904242, 2773480762,
   1359893119, 2600822924, 528734635, 1541459225]

/-- SHA-256 message padding: append 0x80, zeros, then the 64-bit big-endian bit length. -/
def sha256Pad (msg : List Nat) : List Nat :=
  let l := msg.length
  let zeros := (119 - (l % 64)) % 64
  let bitLen := 8 * l
  msg ++ [0x80] ++ List.replicate zeros 0 ++
    [w32 (bitLen >>> 56) % 256, (bitLen >>> 48) % 256, (bitLen >>> 40) % 256, (bitLen >>> 32) % 256,
     (bitLen >>> 24) % 256, (bitLen >>> 16) % 256, (bitLen >>> 8) % 256, bitLen % 256]

/-- Group bytes into big-endian 32-bit words. -/
def toWords : List Nat → List Nat
  | b0 :: b1 :: b2 :: b3 :: rest => (b0 <<< 24 ||| b1 <<< 16 ||| b2 <<< 8 ||| b3) :: toWords rest
  | _ => []

/-- One step of the SHA-256 message-schedule extension: append the next word. -/
def extendStep (w : List Nat) : List Nat :=
  let n := w.length
  let x15 := w.getD (n - 15) 0
  let x2 := w.getD (n - 2) 0
  let s0 := (rotr 7 x15) ^^^ (rotr 18 x15) ^^^ (x15 >>> 3)
  let s1 := (rotr 17 x2) ^^^ (rotr 19 x2) ^^^ (x2 >>> 10)
  w ++ [add32 (add32 (w.getD (n - 16) 0) s0) (add32 (w.getD (n - 7) 0) s1)]

/-- Extend the 16-word schedule by `k` further words. -/
def extendWords (w : List Nat) : Nat → List Nat
  | 0 => w
  | k + 1 => extendWords (extendStep w) k

/-- One SHA-256 round on state `[a,b,c,d,e,f,g,h]` with round input `kw = K[i] + W[i]`. -/
def sha256Round (st : List Nat) (kw : Nat) : List Nat :=
  match st with
  | [a, b, c, d, e, f, g, h] =>
    let s1 := (rotr 6 e) ^^^ (rotr 11 e) ^^^ (rotr 25 e)
    let ch := (e &&& f) ^^^ ((0xffffffff ^^^ e) &&& g)
    let t1 := add32 (add32 h s1) (add32 ch kw)
    let s0 := (rotr 2 a) ^^^ (rotr 13 a) ^^^ (rotr 22 a)
    let mj := (a &&& b) ^^^ (a &&& c) ^^^ (b &&& c)
    let t2 := add32 s0 mj
    [add32 t1 t2, a, b, c, add32 d t1, e, f, g]
  | other => other

/-- SHA-256 compression of one 64-byte block into the running state. -/
def sha256Compress (h : List Nat) (block : List Nat) : List Nat :=
  let w := extendWords (toWords block) 48
  let st := (List.zipWith add32 sha256K w).foldl sha256Round h
  List.zipWith add32 h st

/-- Fold the compression function over `k` 64-byte blocks. -/
def sha256Blocks : Nat → List Nat → List Nat → List Nat
  | 0, h, _ => h
  | k + 1, h, bytes => sha256Blocks k (sha256Compress h (bytes.take 64)) (bytes.drop 64)

/-- Lowercase hex digit. -/
def hexDigit (n : Nat) : Char :=
  if n < 10 then Char.ofNat (48 + n) else Char.ofNat (87 + n)

/-- Two lowercase hex digits of a byte. -/
def byteToHex (b : Nat) : List Char := [hexDigit (b / 16), hexDigit (b % 16)]

/-- Big-endian bytes of a 32-bit word. -/
def wordBytes (v : Nat) : List Nat := [(v >>> 24) % 256, (v >>> 16) % 256, (v >>> 8) % 256, v % 256]

/-- SHA-256 digest of a byte list, as a lowercase hex string (Go hex.EncodeToString). -/
def sha256HexBytes (msg : List Nat) : String :=
  let padded := sha256Pad msg
  let digest := sha256Blocks (padded.length / 64) sha256Init padded
  String.mk (((digest.map wordBytes).flatten.map byteToHex).flatten)

/-- Byte encoding of the (ASCII) record strings the Go code hashes. -/
def strBytes (s : String) : List Nat := s.toList.map Char.toNat

/-- SHA-256 hex of a string, as Go sha256.Sum over the UTF-8 bytes (records are ASCII). -/
def sha256Hex (s : String) : String := sha256HexBytes (strBytes s)

/-! ## Blockchain data model (block.go) -/

/-- Transaction: a transfer of coins (block.go). Go ints are modelled as Int. -/
structure Transaction where
  From : String
  To : String
  Amount : Int
  Timestamp : Int
  Signature : String
  ID : String
deriving DecidableEq, Repr

/-- Transaction.CalculateHash: SHA-256 hex of From||To||Amount||Timestamp. -/
def Transaction.CalculateHash (tx : Transaction) : String :=
  sha256Hex (tx.From ++ tx.To ++ toString tx.Amount ++ toString tx.Timestamp)

/-- Block: a secured batch of transactions (block.go). -/
structure Block where
  Index : Int
  Timestamp : Int
  Transactions : List Transaction
  PrevHash : String
  Hash : String
  Nonce : Int
deriving DecidableEq, Repr

/-- Block.CalculateHash: SHA-256 hex of Index||Timestamp||concat(tx.ID)||PrevHash||Nonce. -/
def Block.CalculateHash (b : Block) : String :=
  let txData := b.Transactions.foldl (fun acc tx => acc ++ tx.ID) ""
  sha256Hex (toString b.Index ++ toString b.Timestamp ++ txData ++ b.PrevHash ++ toString b.Nonce)

/-- NewBlock: builds a block with Nonce 0 and a placeholder hash (block.go).
The wall-clock timestamp is passed explicitly. -/
def NewBlock (txs : List Transaction) (prevHash : String) (height : Int) (ts : Int) : Block :=
  let b : Block :=
    { Index := height, Timestamp := ts, Transactions := txs, PrevHash := prevHash,
      Hash := "", Nonce := 0 }
  { b with Hash := b.CalculateHash }

/-- Difficulty (blockchain.go): default 2. -/
def Difficulty : Nat := 2

/-- The PoW target: strings.Repeat of the zero character, Difficulty times. -/
def target : String := String.mk (List.replicate Difficulty '0')

/-- Character-list model of Go strings.HasPrefix (structural, kernel-evaluable). -/
def listStartsWith : List Char → List Char → Bool
  | _, [] => true
  | [], _ :: _ => false
  | a :: as, b :: bs => a == b && listStartsWith as bs

/-- Go strings.HasPrefix on strings. -/
def strStartsWith (s pre : String) : Bool := listStartsWith s.toList pre.toList

/-- MineBlock (blockchain.go): loop while the hash does not start with the target,
incrementing Nonce and recomputing Hash. The Go loop is unbounded; `fuel` bounds
the number of iterations in the embedding (none = fuel exhausted). -/
def MineBlock : Nat → Block → Option Block
  | 0, b => if strStartsWith b.Hash target then some b else none
  | fuel + 1, b =>
    if strStartsWith b.Hash target then some b
    else
      let b1 := { b with Nonce := b.Nonce + 1 }
      MineBlock fuel { b1 with Hash := b1.CalculateHash }

/-- The genesis coinbase transaction built by InitBlockchain. -/
def genesisCoinbase (minerAddress : String) : Transaction :=
  { From := "SYSTEM", To := minerAddress, Amount := 1000000, Timestamp := 0,
    Signature := "", ID := "GENESIS_COINBASE" }

/-- NewGenesisBlock: first block, PrevHash sentinel "0", height 0 (block.go). -/
def NewGenesisBlock (coinbase : Transaction) (ts : Int) : Block :=
  NewBlock [coinbase] "0" 0 ts

/-- The block InitBlockchain persists when no chain exists: a mined genesis block. -/
def genesisPersist (minerAddress : String) (ts : Int) (fuel : Nat) : Option Block :=
  MineBlock fuel (NewGenesisBlock (genesisCoinbase minerAddress) ts)

/-- The block Blockchain.AddBlock persists: NewBlock over txs ++ mempool on top of the
tip block, then MineBlock (blockchain.go). -/
def addBlockPersist (lastBlock : Block) (txs mempool : List Transaction) (ts : Int)
    (fuel : Nat) : Option Block :=
  MineBlock fuel (NewBlock (txs ++ mempool) lastBlock.Hash (lastBlock.Index + 1) ts)

/-! ## Balance replay (blockchain.go GetBalance / Iterator.Next) -/

/-- The block family of the badger store: block hash to block. -/
def DB : Type := String → Option Block

/-- The loop break condition of GetBalance: PrevHash empty or the genesis sentinel. -/
def isSentinel (h : String) : Bool := h == "" || h == "0"

/-- The per-block balance update of GetBalance's inner loop. -/
def blockDelta (b : Block) (addr : String) : Int :=
  b.Transactions.foldl
    (fun acc tx =>
      (acc + (if tx.To == addr then tx.Amount else 0)) - (if tx.From == addr then tx.Amount else 0))
    0

/-- GetBalance's walk: Iterator.Next from the current hash, accumulating the balance,
stopping on a missing block (iterator returns nil) or the sentinel. `fuel` bounds the
unbounded Go loop. -/
def GetBalanceLoop (db : DB) (addr : String) : Nat → String → Int → Int
  | 0, _, acc => acc
  | fuel + 1, hash, acc =>
    match db hash with
    | none => acc
    | some b =>
      let acc1 := acc + blockDelta b addr
      if isSentinel b.PrevHash then acc1 else GetBalanceLoop db addr fuel b.PrevHash acc1

/-- GetBalance (blockchain.go): replay all transactions from the tip backward. -/
def GetBalance (db : DB) (lastHash : String) (fuel : Nat) (addr : String) : Int :=
  GetBalanceLoop db addr fuel lastHash 0

/-- The chain walk that GetBalance traverses: blocks reachable from `hash` by PrevHash,
ending at a block whose PrevHash is the genesis sentinel. -/
def walkChain (db : DB) : Nat → String → Option (List Block)
  | 0, _ => none
  | fuel + 1, hash =>
    match db hash with
    | none => none
    | some b =>
      if isSentinel b.PrevHash then some [b]
      else
        match walkChain db fuel b.PrevHash with
        | none => none
        | some bs => some (b :: bs)

/-- Sum of Amounts over transactions credited to addr in a list of blocks. -/
def chainCredits (bs : List Block) (addr : String) : Int :=
  (bs.map (fun b => (b.Transactions.map fun tx => if tx.To == addr then tx.Amount else 0).sum)).sum

/-- Sum of Amounts over transactions debited from addr in a list of blocks. -/
def chainDebits (bs : List Block) (addr : String) : Int :=
  (bs.map (fun b => (b.Transactions.map fun tx => if tx.From == addr then tx.Amount else 0).sum)).sum

/-! ## Transaction admission (blockchain.go AddTransaction / VerifyTransaction) -/

/-- VerifyTransaction (blockchain.go): only checks the signature is non-empty. -/
def VerifyTransaction (tx : Transaction) : Bool := tx.Signature != ""

/-- The error kinds AddTransaction returns. -/
inductive TxError where
  | invalidSignature
  | insufficientFunds
deriving DecidableEq, Repr

/-- The chain state AddTransaction reads and mutates. -/
structure ChainState where
  db : DB
  lastHash : String
  mempool : List Transaction

/-- AddTransaction (blockchain.go): reject on empty signature, then on replayed
balance below the amount; otherwise append to the mempool. The Go method mutates
the receiver only on success; the pair returns (result, state after the call). -/
def AddTransaction (fuel : Nat) (st : ChainState) (tx : Transaction) :
    Except TxError Unit × ChainState :=
  if !VerifyTransaction tx then (Except.error TxError.invalidSignature, st)
  else
    let balance := GetBalance st.db st.lastHash fuel tx.From
    if balance < tx.Amount then (Except.error TxError.insufficientFunds, st)
    else (Except.ok (), { st with mempool := st.mempool ++ [tx] })

/-! ## Wallet signature verification (wallet.go) -/

/-- Go unicode.IsSpace on the ASCII range (signatures are hex plus a pipe, all ASCII). -/
def isSpaceChar (c : Char) : Bool :=
  c == ' ' || c == '\t' || c == '\n' || c == '\x0b' || c == '\x0c' || c == '\r'

/-- Number of operands assigned by Go fmt.Sscanf with format "%s|%s": the first %s takes
the maximal run of non-space characters, then the literal pipe must match the next input
character, then the second %s. A pipe is not a space, so the first %s swallows it. -/
def sscanfStrPipeStr (sig : String) : Nat :=
  let cs := sig.toList.dropWhile isSpaceChar
  let tok1 := cs.takeWhile (fun c => !isSpaceChar c)
  let rest := cs.dropWhile (fun c => !isSpaceChar c)
  if tok1.isEmpty then 0
  else
    match rest with
    | '|' :: rest2 =>
      let tok2 := (rest2.dropWhile isSpaceChar).takeWhile (fun c => !isSpaceChar c)
      if tok2.isEmpty then 1 else 2
    | _ => 1

/-- Hex digit recognizer as in Go big.Int scanning. -/
def isHexDigitChar (c : Char) : Bool :=
  ('0' ≤ c && c ≤ '9') || ('a' ≤ c && c ≤ 'f') || ('A' ≤ c && c ≤ 'F')

/-- Value of a hex digit. -/
def hexCharVal (c : Char) : Nat :=
  if c ≤ '9' then c.toNat - 48 else if c ≤ 'F' then c.toNat - 55 else c.toNat - 87

/-- Value of a hex-digit run. -/
def hexRunVal (cs : List Char) : Nat := cs.foldl (fun acc c => 16 * acc + hexCharVal c) 0

/-- Go fmt.Sscanf with format "%x|%x" into two big.Ints: a maximal hex-digit run, the
literal pipe, a second hex-digit run; none models a scan error. -/
def sscanfHexPipeHex (sig : String) : Option (Nat × Nat) :=
  let cs := sig.toList
  let run1 := cs.takeWhile isHexDigitChar
  let rest := cs.dropWhile isHexDigitChar
  if run1.isEmpty then none
  else
    match rest with
    | '|' :: rest2 =>
      let run2 := rest2.takeWhile isHexDigitChar
      if run2.isEmpty then none else some (hexRunVal run1, hexRunVal run2)
    | _ => none

/-- VerifySignature (wallet.go): computes the "%s|%s" operand count n, re-parses the
signature with "%x|%x" into R and S, and returns false on a parse error or n not equal
to 2; otherwise defers to ECDSA P-256 verification, abstracted here as a parameter
(elliptic-curve arithmetic is not modelled). -/
def VerifySignature {Pub Hsh : Type} (ecdsaVerify : Pub → Hsh → Nat → Nat → Bool)
    (pub : Pub) (hash : Hsh) (signature : String) : Bool :=
  let n := sscanfStrPipeStr signature
  match sscanfHexPipeHex signature with
  | none => false
  | some (r, s) => if n ≠ 2 then false else ecdsaVerify pub hash r s

/-- Wallet.Sign output shape (wallet.go): Sprintf of R and S as lowercase hex joined by
a pipe; the ECDSA scalars themselves come from the abstracted signer. -/
def SignOutput (r s : Nat) : String :=
  String.mk (Nat.toDigits 16 r) ++ "|" ++ String.mk (Nat.toDigits 16 s)

/-! ## Compute stream handler (compute_protocol.go) -/

/-- A well-framed Compute request after framing: txId, wasm bytes, input bytes. -/
structure ComputeRequest where
  txId : String
  wasm : List Nat
  input : List Nat
deriving DecidableEq, Repr

/-- Observable effects of one Compute stream exchange: FindTransaction lookups,
VM Run invocations, and the reply frame written (none = stream closed silently). -/
structure ComputeTrace where
  lookups : List String
  vmCalls : List (List Nat × List Nat)
  reply : Option (List Nat)
deriving DecidableEq, Repr

/-- The execute-and-respond tail of the handler: run the VM; on error the reply
payload is the ERROR line; either way a reply frame is written. -/
def computeExecute (vm : List Nat → List Nat → Except String (List Nat))
    (lookups : List String) (req : ComputeRequest) : ComputeTrace :=
  match vm req.wasm req.input with
  | Except.ok out => { lookups := lookups, vmCalls := [(req.wasm, req.input)], reply := some out }
  | Except.error e =>
    { lookups := lookups, vmCalls := [(req.wasm, req.input)],
      reply := some (strBytes ("ERROR: " ++ toString e)) }

/-- HandleComputeStream (compute_protocol.go) on a well-framed request: when the chain
is initialized, FREE_PASS bypasses payment verification; otherwise the payment
transaction is looked up and must exist with Amount at least 5, else the handler
returns (closing the stream) without executing or replying. -/
def HandleComputeStream (chain : Option (String → Option Transaction))
    (vm : List Nat → List Nat → Except String (List Nat)) (req : ComputeRequest) :
    ComputeTrace :=
  match chain with
  | none => computeExecute vm [] req
  | some findTransaction =>
    if req.txId == "FREE_PASS" then computeExecute vm [] req
    else
      match findTransaction req.txId with
      | none => { lookups := [req.txId], vmCalls := [], reply := none }
      | some tx =>
        if tx.Amount < 5 then { lookups := [req.txId], vmCalls := [], reply := none }
        else computeExecute vm [req.txId] req

/-! ## Store stream handler (protocol.go) -/

/-- Observable effects of one Store stream exchange: vault persists, DHT announcements,
and the acknowledgement bytes written on the stream. -/
structure StoreTrace where
  stores : List (List Nat × List Nat)
  announces : List (List Nat)
  written : List Nat
deriving DecidableEq, Repr

/-- HandleStoreStream (protocol.go) on a well-framed request: status starts at 0
(success) and the vault branch runs only when the vault reference is non-nil; the
acknowledgement byte is written unconditionally at the end. -/
def HandleStoreStream (vault : Option (List Nat → List Nat → Except String Unit))
    (dhtEnabled : Bool) (key data : List Nat) : StoreTrace :=
  match vault with
  | none => { stores := [], announces := [], written := [0] }
  | some storeFn =>
    match storeFn key data with
    | Except.error _ => { stores := [], announces := [], written := [1] }
    | Except.ok () =>
      { stores := [(key, data)],
        announces := if dhtEnabled then [key] else [],
        written := [0] }

/-! ## CLI download path (main.go handleDownloadCmd) -/

/-- The DHT key of shard i of a blob. -/
def shardKey (blobName : String) (i : Nat) : String :=
  blobName ++ "-shard-" ++ toString i

/-- Observable download-loop state: the shard slice being filled, the found counter,
the DHT provider queries issued, and the Retrieve-protocol fetches performed. -/
structure DownloadTrace where
  shards : List (Option (List Nat))
  foundCount : Nat
  dhtQueries : List String
  retrieveCalls : List (String × String)
deriving DecidableEq, Repr

/-- One iteration of handleDownloadCmd's shard loop: consult the local vault first;
on a miss, when the DHT is enabled, call FindProviders for the shard key — the
providers are only logged, nothing is fetched and the shard slot stays nil (the
code's comment: implementing full retrieval requires a new protocol handler). -/
def downloadStep (blobName : String) (vault : String → Option (List Nat))
    (dht : Option (String → Except String (List String))) (t : DownloadTrace) (i : Nat) :
    DownloadTrace :=
  let key := shardKey blobName i
  match vault key with
  | some d => { t with shards := t.shards ++ [some d], foundCount := t.foundCount + 1 }
  | none =>
    match dht with
    | some _ => { t with shards := t.shards ++ [none], dhtQueries := t.dhtQueries ++ [key] }
    | none => { t with shards := t.shards ++ [none] }

/-- The shard-collection loop of handleDownloadCmd over indices 0..n-1. -/
def downloadShards (blobName : String) (vault : String → Option (List Nat))
    (dht : Option (String → Except String (List String))) : Nat → DownloadTrace
  | 0 => { shards := [], foundCount := 0, dhtQueries := [], retrieveCalls := [] }
  | i + 1 => downloadStep blobName vault dht (downloadShards blobName vault dht i) i

/-! ## Shard codec (shard.go ShardManager over a spec-modelled Reed-Solomon encoder)

The ShardManager wrapper (Encode = Split + parity Encode; Reconstruct = Verify,
repair, re-Verify, Join) is embedded from shard.go. The enclosed reedsolomon
encoder is an external library, not part of this repository's sources, so it is
modelled from the spec: a systematic (10,4) Reed-Solomon code in which any 10 of
the 14 equal-length shards determine the data. The model works symbol-wise over
the prime field GF(65537) (the library works byte-wise over GF(256); the MDS
contract - up to 4 erasures, fewer than 10 present fails - is the same): shard i
carries, at each position, the evaluation at node i of the degree-below-10
polynomial through the ten data symbols of that column. -/

/-- The shard symbol field GF(65537). -/
abbrev F : Type := ZMod 65537

instance : Fact (Nat.Prime 65537) := ⟨by norm_num⟩

/-- Fuel-based binary exponentiation in F (kernel-evaluable, unlike ZMod.inv). -/
def fpowAux : Nat → F → Nat → F
  | 0, _, _ => 1
  | fuel + 1, x, e =>
    if e = 0 then 1
    else
      let h := fpowAux fuel (x * x) (e / 2)
      if e % 2 = 1 then x * h else h

/-- Executable field inverse in F by Fermat's little theorem. -/
def finv (x : F) : F := fpowAux 17 x 65535

/-- Evaluation at b of the Lagrange interpolation through the nodes of s (as elements
of F) with values r, written as an executable sum of products. -/
def lagEval (s : Finset ℕ) (r : ℕ → F) (b : F) : F :=
  ∑ i ∈ s, r i * ∏ j ∈ s.erase i, (finv ((i : F) - (j : F)) * (b - (j : F)))

/-- Modelled from the spec: size of each shard produced by the encoder's Split for 10
data shards: the ceiling of len/10. -/
def rsShardSize (n : Nat) : Nat := (n + 9) / 10

/-- Data zero-padded to exactly 10 shards worth of symbols. -/
def rsPadded (data : List Nat) : List Nat :=
  data ++ List.replicate (10 * rsShardSize data.length - data.length) 0

/-- Data shard i of the Split: symbols i*ss up to (i+1)*ss of the padded data. -/
def rsChunk (data : List Nat) (i : Nat) : List Nat :=
  ((rsPadded data).drop (i * rsShardSize data.length)).take (rsShardSize data.length)

/-- Modelled from the spec: the encoder's Split: ten equal-length data shards, the
last zero-padded; empty input is an error. -/
def rsSplit (data : List Nat) : Option (List (List Nat)) :=
  if data.length = 0 then none
  else some ((List.range 10).map (rsChunk data))

/-- The p-th symbol column of the data shards, as values in F. -/
def rsCol (d : List (List Nat)) (p : Nat) : ℕ → F := fun j => ((d.getD j []).getD p 0 : F)

/-- Modelled from the spec: shard i of the Reed-Solomon code word: at each position p
the evaluation at node i of the degree-below-10 polynomial through the ten data
symbols of column p. Shards 0..9 reproduce the data (systematic). -/
def rsEncShard (d : List (List Nat)) (ss : Nat) (i : Nat) : List F :=
  (List.range ss).map fun p => lagEval (Finset.range 10) (rsCol d p) (i : F)

namespace ShardManager

/-- ShardManager.Encode (shard.go): Split the data, then encode parity; 14 shards. -/
def Encode (data : List Nat) : Option (List (List F)) :=
  match rsSplit data with
  | none => none
  | some d => some ((List.range 14).map fun i => rsEncShard d (rsShardSize data.length) i)

end ShardManager

/-- Shard i of a shard array whose missing entries are nil. -/
def rsGet (shards : List (Option (List F))) (i : Nat) : List F := (shards.getD i none).getD []

/-- All 14 shards are present. -/
def rsAllPresent (shards : List (Option (List F))) : Bool :=
  (List.range 14).all fun i => (shards.getD i none).isSome

/-- Modelled from the spec: the encoder's Verify: all 14 shards present with equal
lengths and every parity shard consistent with the data-shard columns. -/
def rsVerify (shards : List (Option (List F))) : Bool :=
  rsAllPresent shards &&
    (let L := (rsGet shards 0).length
    ((List.range 14).all fun i => (rsGet shards i).length == L) &&
      ((List.range 4).all fun r =>
        (List.range L).all fun p =>
          (rsGet shards (10 + r)).getD p 0 ==
            lagEval (Finset.range 10) (fun j => (rsGet shards j).getD p 0)
              ((10 + r : Nat) : F)))

/-- The set of present (non-nil) shard indices. -/
def rsPresent (shards : List (Option (List F))) : Finset ℕ :=
  (Finset.range 14).filter fun i => (shards.getD i none).isSome

/-- Modelled from the spec: the encoder's Reconstruct: fails when fewer than 10 of the
14 shards are present or present shards have unequal lengths; otherwise keeps present
shards and rebuilds each missing one by interpolation through the present ones (the
library inverts the matrix rows of exactly 10 of them; through a degree-below-10 code
word both recover the same polynomial, see lagEval_recover). -/
def rsRepair (shards : List (Option (List F))) : Option (List (List F)) :=
  if (rsPresent shards).card < 10 then none
  else
    match ((List.range 14).filter fun i => (shards.getD i none).isSome).head? with
    | none => none
    | some i0 =>
      if ((List.range 14).filter fun i => (shards.getD i none).isSome).all
          (fun i => (rsGet shards i).length == (rsGet shards i0).length) then
        some ((List.range 14).map fun i =>
          match shards.getD i none with
          | some v => v
          | none => (List.range (rsGet shards i0).length).map fun p =>
              lagEval (rsPresent shards) (fun j => (rsGet shards j).getD p 0) (i : F))
      else none

/-- Error kinds of ShardManager.Reconstruct. -/
inductive RSError where
  | insufficientShards
  | corruptShards
  | shortData
deriving DecidableEq, Repr

/-- Modelled from the spec: the encoder's Join: concatenate the ten data shards (as
symbol values) and truncate to the original size; too little data is an error. -/
def rsJoin (sh : List (List F)) (originalSize : Nat) : Except RSError (List Nat) :=
  let allData := ((List.range 10).map fun i => (sh.getD i []).map ZMod.val).flatten
  if allData.length < originalSize then Except.error RSError.shortData
  else Except.ok (allData.take originalSize)

namespace ShardManager

/-- ShardManager.Reconstruct (shard.go): Verify the shards; if that fails, attempt the
encoder's Reconstruct (error = insufficient shards, with a nil data result) and Verify
again (still-invalid shards are fatal); finally Join the data shards truncated to
originalSize. -/
def Reconstruct (shards : List (Option (List F))) (originalSize : Nat) :
    Except RSError (List Nat) :=
  if rsVerify shards then
    rsJoin ((List.range 14).map fun i => rsGet shards i) originalSize
  else
    match rsRepair shards with
    | none => Except.error RSError.insufficientShards
    | some sh =>
      if rsVerify (sh.map some) then rsJoin sh originalSize
      else Except.error RSError.corruptShards

end ShardManager



/-- The shard array of the round-trip claim: shard i kept exactly for i in S. -/
def rsMask (encL : List (List F)) (S : Finset ℕ) : List (Option (List F)) :=
  (List.range 14).map fun i => if i ∈ S then some (encL.getD i []) else none


/-- The encoding of the one-byte blob [1]: ten data shards carrying the padded byte
column and four parity shards carrying the evaluations at nodes 10..13. -/
def rtWitnessEnc : List (List F) :=
  [[1], [0], [0], [0], [0], [0], [0], [0], [0], [0], [65536], [65527], [65482], [65317]]

/-- The witness erasure pattern: shards 7, 10, 11 and 13 are lost. -/
def rtWitnessSet : Finset ℕ := {0, 1, 2, 3, 4, 5, 6, 8, 9, 12}


/-! ## Concrete instances used by witnesses and counterexamples -/

/-- The genesis block mined at timestamp 916 for miner "A" (PoW succeeds at Nonce 0). -/
def genesisWitnessBlock : Block :=
  { Index := 0, Timestamp := 916, Transactions := [genesisCoinbase "A"], PrevHash := "0",
    Hash := "00e1896c12bff9129036630e95c81b1fb179560ff2c3b43bcf726c11e338f90e", Nonce := 0 }

/-- A block whose PoW search needs four nonce iterations. -/
def cancelProbeBlock : Block := NewBlock [] "ab" 1 131

/-- The block the mining loop eventually produces from cancelProbeBlock. -/
def cancelProbeMined : Block :=
  { Index := 1, Timestamp := 131, Transactions := [], PrevHash := "ab",
    Hash := "0056450fd8084c7f4e3a853ed1fbd143b092c06dc570036ba081edd65c309802", Nonce := 4 }

/-- A one-block chain: genesis coinbase crediting "alice" 7 coins from "SYSTEM". -/
def walkWitnessBlock : Block :=
  { Index := 0, Timestamp := 0,
    Transactions := [{ From := "SYSTEM", To := "alice", Amount := 7, Timestamp := 0,
                       Signature := "", ID := "t0" }],
    PrevHash := "0", Hash := "g", Nonce := 0 }

/-- A block store holding exactly the one-block chain above under hash "g". -/
def walkWitnessDB : DB := fun h => if h = "g" then some walkWitnessBlock else none

/-- An empty chain state over an empty block store. -/
def emptyChainState : ChainState := { db := fun _ => none, lastHash := "0", mempool := [] }

/-- C8 counterexample input: an empty local vault and a DHT that knows a provider
for every shard key. -/
def cexVault : String → Option (List Nat) := fun _ => none

/-- A DHT returning provider "P1" for every key. -/
def cexDHT : Option (String → Except String (List String)) := some fun _ => Except.ok ["P1"]

/-! ## Theorems: proof-of-work invariant (C3) -/

/-- Replacing the Hash field does not change the computed hash. -/
theorem CalculateHash_hash_irrel (b : Block) (x : String) :
    Block.CalculateHash { b with Hash := x } = b.CalculateHash := rfl

/-- A NewBlock satisfies the hash-consistency invariant at construction. -/
theorem NewBlock_hash_eq (txs : List Transaction) (prevHash : String) (height ts : Int) :
    (NewBlock txs prevHash height ts).Hash = (NewBlock txs prevHash height ts).CalculateHash := rfl

/-- The mining loop preserves hash consistency and establishes the PoW target. -/
theorem MineBlock_invariant (fuel : Nat) :
    ∀ b bm, b.Hash = b.CalculateHash → MineBlock fuel b = some bm →
      strStartsWith bm.Hash target = true ∧ bm.Hash = bm.CalculateHash := by
  induction fuel with
  | zero =>
    intro b bm hinv hrun
    simp only [MineBlock] at hrun
    by_cases h : strStartsWith b.Hash target = true
    · simp only [h, if_true] at hrun
      cases hrun
      exact ⟨h, hinv⟩
    · simp only [eq_false_of_ne_true h, Bool.false_eq_true, if_false] at hrun
      exact Option.noConfusion hrun
  | succ n ih =>
    intro b bm hinv hrun
    simp only [MineBlock] at hrun
    by_cases h : strStartsWith b.Hash target = true
    · simp only [h, if_true] at hrun
      cases hrun
      exact ⟨h, hinv⟩
    · simp only [eq_false_of_ne_true h, Bool.false_eq_true, if_false] at hrun
      exact ih _ _ rfl hrun

/-- C3: every block persisted by InitBlockchain (mined genesis) or by AddBlock satisfies
the PoW invariant: its Hash starts with Difficulty zero hex characters and equals
CalculateHash of the block (SHA-256 hex of Index||Timestamp||concat(tx.ID)||PrevHash||Nonce);
MineBlock establishes this before the block is written. -/
theorem pow_invariant :
    (∀ miner ts fuel b, genesisPersist miner ts fuel = some b →
        strStartsWith b.Hash target = true ∧ b.Hash = b.CalculateHash) ∧
    (∀ lastBlock txs mempool ts fuel b, addBlockPersist lastBlock txs mempool ts fuel = some b →
        strStartsWith b.Hash target = true ∧ b.Hash = b.CalculateHash) := by
  constructor
  · intro miner ts fuel b h
    exact MineBlock_invariant fuel _ b (NewBlock_hash_eq _ _ _ _) h
  · intro lastBlock txs mempool ts fuel b h
    exact MineBlock_invariant fuel _ b (NewBlock_hash_eq _ _ _ _) h

set_option maxRecDepth 1000000 in
/-- Witness for C3: a concrete persisted genesis block satisfies the PoW invariant. -/
theorem pow_invariant_witness :
    strStartsWith genesisWitnessBlock.Hash target = true ∧
      genesisWitnessBlock.Hash = genesisWitnessBlock.CalculateHash :=
  pow_invariant.1 "A" 916 0 genesisWitnessBlock (by decide)

/-! ## Theorems: PoW cancellation (C9) -/

set_option maxRecDepth 1000000 in
/-- C9: the mining loop MineBlock takes no cancellation input at all (its type is
Nat → Block → Option Block, a pure function of the block): started on cancelProbeBlock
it runs through four nonce iterations until a matching hash is found, rather than
stopping within one iteration on any ambient cancellation signal. -/
theorem mineBlock_ignores_cancellation :
    MineBlock 100 cancelProbeBlock = some cancelProbeMined ∧
      cancelProbeMined.Nonce = 4 ∧
      strStartsWith cancelProbeBlock.Hash target = false := by
  refine ⟨by decide, rfl, by decide⟩

/-! ## Theorems: balance replay (C4) -/

/-- Accumulator form of the transaction fold inside GetBalance's block loop. -/
theorem blockDelta_foldl (addr : String) (txs : List Transaction) : ∀ acc : Int,
    txs.foldl
      (fun acc tx =>
        (acc + (if tx.To == addr then tx.Amount else 0)) -
          (if tx.From == addr then tx.Amount else 0)) acc =
      acc + ((txs.map fun tx => if tx.To == addr then tx.Amount else 0).sum -
        (txs.map fun tx => if tx.From == addr then tx.Amount else 0).sum) := by
  induction txs with
  | nil => intro acc; simp
  | cons t ts ih =>
    intro acc
    simp only [List.foldl_cons, List.map_cons, List.sum_cons]
    rw [ih]
    omega

/-- blockDelta is the per-block credits minus debits. -/
theorem blockDelta_eq (b : Block) (addr : String) :
    blockDelta b addr =
      (b.Transactions.map fun tx => if tx.To == addr then tx.Amount else 0).sum -
        (b.Transactions.map fun tx => if tx.From == addr then tx.Amount else 0).sum := by
  have h := blockDelta_foldl addr b.Transactions 0
  rw [zero_add] at h
  exact h

/-- The balance loop accumulator splits off. -/
theorem GetBalanceLoop_acc (db : DB) (addr : String) : ∀ (fuel : Nat) (hash : String) (acc : Int),
    GetBalanceLoop db addr fuel hash acc = acc + GetBalanceLoop db addr fuel hash 0 := by
  intro fuel
  induction fuel with
  | zero => intro hash acc; simp [GetBalanceLoop]
  | succ n ih =>
    intro hash acc
    simp only [GetBalanceLoop]
    cases hdb : db hash with
    | none => simp
    | some b =>
      by_cases hs : isSentinel b.PrevHash = true
      · simp only [hs, if_true]
        omega
      · simp only [eq_false_of_ne_true hs, Bool.false_eq_true, if_false]
        rw [ih b.PrevHash (acc + blockDelta b addr), ih b.PrevHash (0 + blockDelta b addr)]
        omega

/-- C4: for every address and every chain reachable by walking PrevHash from the tip
hash down to the genesis sentinel, GetBalance equals the sum of Amounts credited to the
address minus the sum of Amounts debited from it over those blocks (in particular the
genesis coinbase credits the miner and debits "SYSTEM"). -/
theorem balance_replay : ∀ (db : DB) (fuel : Nat) (lastHash : String) (bs : List Block)
    (addr : String), walkChain db fuel lastHash = some bs →
    GetBalance db lastHash fuel addr = chainCredits bs addr - chainDebits bs addr := by
  intro db fuel
  induction fuel with
  | zero => intro lastHash bs addr hwalk; simp [walkChain] at hwalk
  | succ n ih =>
    intro lastHash bs addr hwalk
    simp only [walkChain] at hwalk
    cases hdb : db lastHash with
    | none => rw [hdb] at hwalk; simp at hwalk
    | some b =>
      rw [hdb] at hwalk
      by_cases hs : isSentinel b.PrevHash = true
      · simp only [hs, if_true, Option.some.injEq] at hwalk
        subst hwalk
        simp only [GetBalance, GetBalanceLoop, hdb, hs, if_true, chainCredits, chainDebits,
          List.map_cons, List.map_nil, List.sum_cons, List.sum_nil]
        rw [blockDelta_eq]
        omega
      · simp only [eq_false_of_ne_true hs, Bool.false_eq_true, if_false] at hwalk
        cases hrest : walkChain db n b.PrevHash with
        | none => rw [hrest] at hwalk; simp at hwalk
        | some bs1 =>
          rw [hrest] at hwalk
          simp only [Option.some.injEq] at hwalk
          subst hwalk
          simp only [GetBalance, GetBalanceLoop, hdb, eq_false_of_ne_true hs,
            Bool.false_eq_true, if_false]
          rw [GetBalanceLoop_acc]
          have hprev := ih b.PrevHash bs1 addr hrest
          simp only [GetBalance] at hprev
          rw [hprev, blockDelta_eq]
          simp only [chainCredits, chainDebits, List.map_cons, List.sum_cons]
          omega

/-- Witness for C4: on the concrete one-block chain the replayed balance matches the sum. -/
theorem balance_replay_witness :
    GetBalance walkWitnessDB "g" 1 "alice" =
      chainCredits [walkWitnessBlock] "alice" - chainDebits [walkWitnessBlock] "alice" :=
  balance_replay walkWitnessDB 1 "g" [walkWitnessBlock] "alice" (by decide)

/-! ## Theorems: transaction admission (C5) -/

/-- C5: AddTransaction rejects an empty signature with the invalid-signature error,
rejects a replayed balance below the amount with the insufficient-funds error, and
otherwise appends the transaction to the mempool; on either error the state (hence
the mempool) is unchanged. -/
theorem addTransaction_cases (fuel : Nat) (st : ChainState) (tx : Transaction) :
    (tx.Signature = "" →
      AddTransaction fuel st tx = (Except.error TxError.invalidSignature, st)) ∧
    (tx.Signature ≠ "" → GetBalance st.db st.lastHash fuel tx.From < tx.Amount →
      AddTransaction fuel st tx = (Except.error TxError.insufficientFunds, st)) ∧
    (tx.Signature ≠ "" → ¬ GetBalance st.db st.lastHash fuel tx.From < tx.Amount →
      AddTransaction fuel st tx = (Except.ok (), { st with mempool := st.mempool ++ [tx] })) := by
  refine ⟨?_, ?_, ?_⟩
  · intro h
    simp [AddTransaction, VerifyTransaction, h]
  · intro h hbal
    simp [AddTransaction, VerifyTransaction, bne_iff_ne, h, hbal]
  · intro h hbal
    simp [AddTransaction, VerifyTransaction, bne_iff_ne, h, hbal]

/-- Witness for C5: a concrete unsigned transaction is rejected leaving the state
unchanged, and a concrete signed zero-amount transaction is appended to the mempool. -/
theorem addTransaction_cases_witness :
    AddTransaction 1 emptyChainState
        { From := "a", To := "b", Amount := 1, Timestamp := 0, Signature := "", ID := "x" } =
      (Except.error TxError.invalidSignature, emptyChainState) ∧
    AddTransaction 1 emptyChainState
        { From := "a", To := "b", Amount := 0, Timestamp := 0, Signature := "s", ID := "x" } =
      (Except.ok (), { emptyChainState with mempool :=
        [{ From := "a", To := "b", Amount := 0, Timestamp := 0, Signature := "s", ID := "x" }] }) :=
  ⟨(addTransaction_cases 1 emptyChainState _).1 rfl,
   (addTransaction_cases 1 emptyChainState _).2.2 (by decide) (by decide)⟩

/-! ## Theorems: signature verification (C7) -/

set_option maxRecDepth 40000 in
/-- C7 (code defect witness): on a signature of the exact "R|S" hex shape that
Wallet.Sign emits (here R = 0xab, S = 0xcd), the "%x|%x" parse succeeds with the right
big-int values, yet the "%s|%s" operand count is 1 — the first %s swallows the pipe —
so VerifySignature returns false even under an ECDSA backend that accepts everything.
The sign/verify round-trip can never return true. -/
theorem verifySignature_rejects_signed :
    SignOutput 171 205 = "ab|cd" ∧
    sscanfHexPipeHex (SignOutput 171 205) = some (171, 205) ∧
    sscanfStrPipeStr (SignOutput 171 205) = 1 ∧
    (∀ accept : Unit → Unit → Nat → Nat → Bool,
      VerifySignature accept () () (SignOutput 171 205) = false) := by
  refine ⟨by decide, by decide, by decide, ?_⟩
  intro accept
  have hs : SignOutput 171 205 = "ab|cd" := by decide
  have hp : sscanfHexPipeHex "ab|cd" = some (171, 205) := by decide
  have hn : sscanfStrPipeStr "ab|cd" = 1 := by decide
  rw [hs]
  simp only [VerifySignature, hp, hn]
  simp

/-! ## Theorems: compute payment gate (C2) -/

/-- C2: with an initialized chain, a Compute request whose txId is not FREE_PASS and
whose payment transaction is missing or has Amount below the minimum fee of 5 never
invokes the VM and closes the stream without writing any reply frame; with
txId = FREE_PASS the payment check (FindTransaction lookup) is skipped entirely. -/
theorem compute_payment_gate (findTransaction : String → Option Transaction)
    (vm : List Nat → List Nat → Except String (List Nat)) (req : ComputeRequest) :
    (req.txId ≠ "FREE_PASS" →
      (findTransaction req.txId = none ∨
        ∃ tx, findTransaction req.txId = some tx ∧ tx.Amount < 5) →
      (HandleComputeStream (some findTransaction) vm req).vmCalls = [] ∧
        (HandleComputeStream (some findTransaction) vm req).reply = none) ∧
    (req.txId = "FREE_PASS" →
      (HandleComputeStream (some findTransaction) vm req).lookups = []) := by
  constructor
  · intro hfree hpay
    have hbeq : (req.txId == "FREE_PASS") = false := by
      simp [hfree]
    cases hpay with
    | inl hnone =>
      simp [HandleComputeStream, hbeq, hnone]
    | inr hlow =>
      obtain ⟨tx, htx, hamt⟩ := hlow
      simp [HandleComputeStream, hbeq, htx, hamt]
  · intro hfree
    have hbeq : (req.txId == "FREE_PASS") = true := by
      simp [hfree]
    cases hvm : vm req.wasm req.input with
    | ok out => simp [HandleComputeStream, hbeq, computeExecute, hvm]
    | error e => simp [HandleComputeStream, hbeq, computeExecute, hvm]

/-- Witness for C2: a concrete request whose payment transaction is unknown is not
executed and gets no reply. -/
theorem compute_payment_gate_witness :
    (HandleComputeStream (some fun _ => none) (fun _ _ => Except.ok [])
        { txId := "t", wasm := [0], input := [1] }).vmCalls = [] ∧
      (HandleComputeStream (some fun _ => none) (fun _ _ => Except.ok [])
        { txId := "t", wasm := [0], input := [1] }).reply = none :=
  (compute_payment_gate (fun _ => none) (fun _ _ => Except.ok [])
      { txId := "t", wasm := [0], input := [1] }).1 (by decide) (Or.inl rfl)

/-! ## Theorems: store handler with nil vault (C10) -/

/-- C10: on a node whose vault reference is nil, a well-framed Store request is
acknowledged with the success byte 0 while nothing is persisted and no DHT
announcement is made; a real successful store writes the same acknowledgement, so the
sender cannot distinguish the two. -/
theorem store_nil_vault_acks_success (dhtEnabled : Bool) (key data : List Nat) :
    HandleStoreStream none dhtEnabled key data =
      { stores := [], announces := [], written := [0] } ∧
    (∀ storeFn : List Nat → List Nat → Except String Unit, storeFn key data = Except.ok () →
      (HandleStoreStream (some storeFn) dhtEnabled key data).written =
        (HandleStoreStream none dhtEnabled key data).written) := by
  constructor
  · rfl
  · intro storeFn hok
    simp [HandleStoreStream, hok]

/-- Witness for C10: a concrete nil-vault exchange acks 0, matching a real store. -/
theorem store_nil_vault_acks_success_witness :
    HandleStoreStream none true [1] [2] = { stores := [], announces := [], written := [0] } ∧
      (HandleStoreStream (some fun _ _ => Except.ok ()) true [1] [2]).written =
        (HandleStoreStream none true [1] [2]).written :=
  ⟨(store_nil_vault_acks_success true [1] [2]).1,
   (store_nil_vault_acks_success true [1] [2]).2 (fun _ _ => Except.ok ()) rfl⟩

/-! ## Theorems: download path (C8) -/

/-- One loop step appends exactly the local vault lookup to the shard list. -/
theorem downloadStep_shards (blobName : String) (vault : String → Option (List Nat))
    (dht : Option (String → Except String (List String))) (t : DownloadTrace) (i : Nat) :
    (downloadStep blobName vault dht t i).shards =
      t.shards ++ [vault (shardKey blobName i)] := by
  simp only [downloadStep]
  cases hv : vault (shardKey blobName i) with
  | some d => rfl
  | none =>
    cases dht with
    | some f => rfl
    | none => rfl

/-- One loop step never touches the Retrieve call log. -/
theorem downloadStep_retrieve (blobName : String) (vault : String → Option (List Nat))
    (dht : Option (String → Except String (List String))) (t : DownloadTrace) (i : Nat) :
    (downloadStep blobName vault dht t i).retrieveCalls = t.retrieveCalls := by
  simp only [downloadStep]
  cases hv : vault (shardKey blobName i) with
  | some d => rfl
  | none =>
    cases dht with
    | some f => rfl
    | none => rfl

/-- With the DHT enabled, one loop step queries providers exactly on a vault miss. -/
theorem downloadStep_queries (blobName : String) (vault : String → Option (List Nat))
    (f : String → Except String (List String)) (t : DownloadTrace) (i : Nat) :
    (downloadStep blobName vault (some f) t i).dhtQueries =
      t.dhtQueries ++
        (if vault (shardKey blobName i) = none then [shardKey blobName i] else []) := by
  simp only [downloadStep]
  cases hv : vault (shardKey blobName i) with
  | some d => simp
  | none => simp

/-- The download loop never issues a Retrieve fetch. -/
theorem downloadShards_no_retrieve (blobName : String) (vault : String → Option (List Nat))
    (dht : Option (String → Except String (List String))) : ∀ n : Nat,
    (downloadShards blobName vault dht n).retrieveCalls = [] := by
  intro n
  induction n with
  | zero => rfl
  | succ k ih =>
    simp only [downloadShards]
    rw [downloadStep_retrieve]
    exact ih

/-- The shard list built by the download loop has one slot per index. -/
theorem downloadShards_length (blobName : String) (vault : String → Option (List Nat))
    (dht : Option (String → Except String (List String))) : ∀ n : Nat,
    (downloadShards blobName vault dht n).shards.length = n := by
  intro n
  induction n with
  | zero => rfl
  | succ k ih =>
    simp only [downloadShards]
    rw [downloadStep_shards]
    simp [ih]

/-- Each shard slot holds exactly the local vault lookup result. -/
theorem downloadShards_shards (blobName : String) (vault : String → Option (List Nat))
    (dht : Option (String → Except String (List String))) : ∀ n i : Nat, i < n →
    (downloadShards blobName vault dht n).shards.getD i none = vault (shardKey blobName i) := by
  intro n
  induction n with
  | zero => intro i hi; omega
  | succ k ih =>
    intro i hi
    have hlen := downloadShards_length blobName vault dht k
    simp only [downloadShards]
    rw [downloadStep_shards]
    rcases Nat.lt_succ_iff_lt_or_eq.mp hi with hlt | heq
    · rw [List.getD_append _ _ _ _ (by rw [hlen]; exact hlt)]
      exact ih i hlt
    · subst heq
      rw [List.getD_append_right _ _ _ _ (le_of_eq hlen)]
      simp [hlen]

/-- Every locally missing shard index gets a FindProviders query when the DHT is up. -/
theorem downloadShards_queries (blobName : String) (vault : String → Option (List Nat))
    (f : String → Except String (List String)) : ∀ n i : Nat, i < n →
    vault (shardKey blobName i) = none →
    shardKey blobName i ∈ (downloadShards blobName vault (some f) n).dhtQueries := by
  intro n
  induction n with
  | zero => intro i hi; omega
  | succ k ih =>
    intro i hi hmiss
    simp only [downloadShards]
    rw [downloadStep_queries, List.mem_append]
    rcases Nat.lt_succ_iff_lt_or_eq.mp hi with hlt | heq
    · exact Or.inl (ih i hlt hmiss)
    · subst heq
      rw [hmiss]
      simp

/-- C8 is false on the code: with no local shards and a reachable provider known for
every shard key, the download loop issues no Retrieve fetch at all and shard slot 0
stays nil, so no fetched shard can participate in reconstruction. -/
theorem download_fetch_cex :
    (downloadShards "f" cexVault cexDHT 14).retrieveCalls = [] ∧
      (downloadShards "f" cexVault cexDHT 14).shards.getD 0 none = none := by
  constructor
  · decide
  · decide

/-- C8 amended: for every shard index below 14, the download path fills the slot with
the local vault lookup only; when the shard is not local and the DHT is enabled it
queries FindProviders for the shard key, but it performs no Retrieve fetch, so only
locally present shards participate in reconstruction. -/
theorem download_discovery_only (blobName : String) (vault : String → Option (List Nat))
    (f : String → Except String (List String)) :
    (downloadShards blobName vault (some f) 14).retrieveCalls = [] ∧
    (∀ i, i < 14 →
      (downloadShards blobName vault (some f) 14).shards.getD i none =
        vault (shardKey blobName i)) ∧
    (∀ i, i < 14 → vault (shardKey blobName i) = none →
      shardKey blobName i ∈ (downloadShards blobName vault (some f) 14).dhtQueries) :=
  ⟨downloadShards_no_retrieve blobName vault (some f) 14,
   fun i hi => downloadShards_shards blobName vault (some f) 14 i hi,
   fun i hi hmiss => downloadShards_queries blobName vault f 14 i hi hmiss⟩

/-- Witness for the amended C8: concrete empty vault, concrete DHT. -/
theorem download_discovery_only_witness :
    (downloadShards "g" cexVault (some fun _ => Except.ok []) 14).retrieveCalls = [] ∧
      (downloadShards "g" cexVault (some fun _ => Except.ok []) 14).shards.getD 3 none =
        cexVault (shardKey "g" 3) ∧
      shardKey "g" 3 ∈ (downloadShards "g" cexVault (some fun _ => Except.ok []) 14).dhtQueries :=
  ⟨(download_discovery_only "g" cexVault (fun _ => Except.ok [])).1,
   (download_discovery_only "g" cexVault (fun _ => Except.ok [])).2.1 3 (by decide),
   (download_discovery_only "g" cexVault (fun _ => Except.ok [])).2.2 3 (by decide) rfl⟩

/-! ## Reed-Solomon lemmas -/

theorem fpowAux_eq (fuel : Nat) : ∀ (x : F) (e : Nat), e < 2 ^ fuel →
    fpowAux fuel x e = x ^ e := by
  induction fuel with
  | zero => intro x e he; interval_cases e; simp [fpowAux]
  | succ n ih =>
    intro x e he
    simp only [fpowAux]
    by_cases h0 : e = 0
    · simp [h0]
    · simp only [h0, if_false]
      have hdiv : e / 2 < 2 ^ n := by
        have h2 : 2 ^ (n + 1) = 2 * 2 ^ n := by ring
        omega
      rw [ih (x * x) (e / 2) hdiv]
      have hx : (x * x) ^ (e / 2) = x ^ (2 * (e / 2)) := by
        rw [pow_mul]; ring_nf
      by_cases hodd : e % 2 = 1
      · simp only [hodd, if_true]
        rw [hx, ← pow_succ']
        congr 1
        omega
      · simp only [hodd, if_false]
        rw [hx]
        congr 1
        omega

theorem finv_eq (x : F) : finv x = x⁻¹ := by
  rw [finv, fpowAux_eq 17 x 65535 (by norm_num)]
  by_cases hx : x = 0
  · subst hx
    rw [inv_zero]
    exact zero_pow (by norm_num)
  · have h1 : x ^ (65537 - 1) = 1 := ZMod.pow_card_sub_one_eq_one hx
    have h2 : x ^ 65535 * x = 1 := by
      rw [← pow_succ]
      norm_num at h1 ⊢
      exact h1
    calc x ^ 65535 = x⁻¹ * x * x ^ 65535 := by rw [inv_mul_cancel₀ hx, one_mul]
      _ = x⁻¹ * (x ^ 65535 * x) := by ring
      _ = x⁻¹ := by rw [h2, mul_one]

/-- The executable lagEval is the evaluation of the Mathlib Lagrange interpolation. -/
theorem lagEval_eq (s : Finset ℕ) (r : ℕ → F) (b : F) :
    lagEval s r b = (Lagrange.interpolate s (fun i => (i : F)) r).eval b := by
  rw [Lagrange.interpolate_apply, Polynomial.eval_finset_sum]
  unfold lagEval
  refine Finset.sum_congr rfl ?_
  intro i hi
  rw [Polynomial.eval_mul, Polynomial.eval_C, Lagrange.basis, Polynomial.eval_prod]
  refine congrArg (r i * ·) ?_
  refine Finset.prod_congr rfl ?_
  intro j hj
  rw [Lagrange.basisDivisor, finv_eq]
  simp [smul_eq_mul]

/-- lagEval only reads the value function on the node set. -/
theorem lagEval_congr (s : Finset ℕ) (r1 r2 : ℕ → F) (b : F)
    (h : ∀ i ∈ s, r1 i = r2 i) : lagEval s r1 b = lagEval s r2 b :=
  Finset.sum_congr rfl fun i hi => by rw [h i hi]

/-- Distinct naturals below 14 map to distinct elements of F. -/
theorem rsNode_injOn (s : Finset ℕ) (hs : ∀ i ∈ s, i < 14) :
    Set.InjOn (fun i : ℕ => (i : F)) s := by
  intro i hi j hj hij
  have hi14 := hs i hi
  have hj14 := hs j hj
  have hv : ZMod.val ((i : ℕ) : F) = ZMod.val ((j : ℕ) : F) := congrArg ZMod.val hij
  rwa [ZMod.val_natCast_of_lt (by omega), ZMod.val_natCast_of_lt (by omega)] at hv

/-- getD of a map over a range. -/
theorem getD_map_range {α : Type} (f : ℕ → α) (d : α) {n p : ℕ} (hp : p < n) :
    ((List.range n).map f).getD p d = f p := by
  rw [List.getD_eq_getElem _ _ (by simpa using hp)]
  simp

/-- A list is the range-map of its own getD. -/
theorem map_getD_range_eq {α : Type} (l : List α) (d : α) :
    (List.range l.length).map (fun p => l.getD p d) = l := by
  apply List.ext_getElem
  · simp
  · intro i h1 h2
    have h3 : i < l.length := by simpa using h2
    simp only [List.getElem_map, List.getElem_range]
    exact List.getD_eq_getElem l d h3

/-- Interpolation through at least 10 nodes carrying the values of a polynomial of
degree below 10 recovers that polynomial everywhere: the uniqueness at the heart of
the Reed-Solomon erasure guarantee. -/
theorem lagEval_recover (S : Finset ℕ) (hS : ∀ i ∈ S, i < 14) (hcard : 10 ≤ S.card)
    (q : Polynomial F) (hdeg : q.degree < (10 : ℕ)) (r : ℕ → F)
    (hr : ∀ j ∈ S, r j = q.eval ((j : ℕ) : F)) (b : F) :
    lagEval S r b = q.eval b := by
  rw [lagEval_eq]
  have hinj : Set.InjOn (fun i : ℕ => (i : F)) S := rsNode_injOn S hS
  have hdeg2 : q.degree < (S.card : WithBot ℕ) :=
    lt_of_lt_of_le hdeg (WithBot.coe_le_coe.mpr hcard)
  have hq : q = Lagrange.interpolate S (fun i => (i : F)) r :=
    Lagrange.eq_interpolate_of_eval_eq r hinj hdeg2 (fun j hj => (hr j hj).symm)
  rw [← hq]

/-- The column interpolation polynomial has degree below 10. -/
theorem rsPoly_degree (d : List (List Nat)) (p : Nat) :
    (Lagrange.interpolate (Finset.range 10) (fun i : ℕ => (i : F)) (rsCol d p)).degree
      < (10 : ℕ) := by
  have hinj : Set.InjOn (fun i : ℕ => (i : F)) (Finset.range 10) := by
    refine rsNode_injOn _ ?_
    intro j hj
    have := Finset.mem_range.mp hj
    omega
  have h := Lagrange.degree_interpolate_lt (rsCol d p) hinj
  simpa using h

/-- Encoded shard length. -/
theorem rsEncShard_length (d : List (List Nat)) (ss i : Nat) :
    (rsEncShard d ss i).length = ss := by
  simp [rsEncShard]

/-- Encoded shard symbols. -/
theorem rsEncShard_getD (d : List (List Nat)) (ss i p : Nat) (hp : p < ss) :
    (rsEncShard d ss i).getD p 0 = lagEval (Finset.range 10) (rsCol d p) (i : F) :=
  getD_map_range _ _ hp

/-- Encoded shard symbols are evaluations of the column polynomial. -/
theorem rsEncShard_getD_eval (d : List (List Nat)) (ss i p : Nat) (hp : p < ss) :
    (rsEncShard d ss i).getD p 0 =
      (Lagrange.interpolate (Finset.range 10) (fun t : ℕ => (t : F)) (rsCol d p)).eval
        ((i : ℕ) : F) := by
  rw [rsEncShard_getD d ss i p hp, lagEval_eq]

/-- Systematic property: at a data node the column polynomial takes the data value. -/
theorem lagEval_at_data_node (d : List (List Nat)) (p : Nat) (i : ℕ) (hi : i < 10) :
    lagEval (Finset.range 10) (rsCol d p) ((i : ℕ) : F) = rsCol d p i := by
  rw [lagEval_eq]
  refine Lagrange.eval_interpolate_at_node (rsCol d p) ?_ (Finset.mem_range.mpr hi)
  refine rsNode_injOn _ ?_
  intro j hj
  have := Finset.mem_range.mp hj
  omega

/-- Verify succeeds on any shard array carrying exactly the 14 encoded shards. -/
theorem rsVerify_encoded (d : List (List Nat)) (ss : Nat) (shards : List (Option (List F)))
    (h : ∀ i, i < 14 → shards.getD i none = some (rsEncShard d ss i)) :
    rsVerify shards = true := by
  have hget : ∀ i, i < 14 → rsGet shards i = rsEncShard d ss i := by
    intro i hi
    rw [rsGet, h i hi]
    rfl
  simp only [rsVerify, rsAllPresent, Bool.and_eq_true, List.all_eq_true, List.mem_range]
  refine ⟨?_, ?_, ?_⟩
  · intro i hi
    rw [h i hi]
    rfl
  · intro i hi
    rw [hget i hi, hget 0 (by omega), rsEncShard_length, rsEncShard_length]
    exact beq_self_eq_true ss
  · intro r hr p hp
    rw [hget 0 (by omega), rsEncShard_length] at hp
    rw [hget (10 + r) (by omega), rsEncShard_getD d ss (10 + r) p hp]
    have hvals : lagEval (Finset.range 10) (fun j => (rsGet shards j).getD p 0)
        ((10 + r : ℕ) : F) = lagEval (Finset.range 10) (rsCol d p) ((10 + r : ℕ) : F) := by
      refine lagEval_congr _ _ _ _ ?_
      intro j hj
      have hj10 := Finset.mem_range.mp hj
      rw [hget j (by omega), rsEncShard_getD d ss j p hp, lagEval_at_data_node d p j hj10]
    rw [hvals]
    exact beq_self_eq_true _

/-! ## Split, chunk and join lemmas -/

theorem rsPadded_length (data : List Nat) :
    (rsPadded data).length = 10 * rsShardSize data.length := by
  simp only [rsPadded, rsShardSize, List.length_append, List.length_replicate]
  omega

theorem rsChunk_length (data : List Nat) (i : Nat) (hi : i < 10) :
    (rsChunk data i).length = rsShardSize data.length := by
  have hmul : i * rsShardSize data.length ≤ 9 * rsShardSize data.length :=
    Nat.mul_le_mul_right _ (by omega)
  simp only [rsChunk, List.length_take, List.length_drop, rsPadded_length]
  omega

theorem rsChunk_mem_lt (data : List Nat) (hbytes : ∀ b ∈ data, b < 256) (i : Nat) :
    ∀ x ∈ rsChunk data i, x < 65537 := by
  intro x hx
  have hx2 : x ∈ rsPadded data := List.mem_of_mem_drop (List.mem_of_mem_take hx)
  rcases List.mem_append.mp hx2 with h | h
  · have := hbytes x h
    omega
  · have := List.eq_of_mem_replicate h
    omega

theorem rsSplit_eq (data : List Nat) (h : data.length ≠ 0) :
    rsSplit data = some ((List.range 10).map (rsChunk data)) := by
  simp [rsSplit, h]

theorem rsCol_chunks (data : List Nat) (p j : Nat) (hj : j < 10) :
    rsCol ((List.range 10).map (rsChunk data)) p j = ((rsChunk data j).getD p 0 : F) := by
  rw [rsCol, getD_map_range _ _ hj]

/-- Systematic property at the shard level: data shards of the code word are the
chunks themselves, injected into F. -/
theorem rsEncShard_data (data : List Nat) (i : Nat) (hi : i < 10) :
    rsEncShard ((List.range 10).map (rsChunk data)) (rsShardSize data.length) i =
      (rsChunk data i).map (fun x : Nat => (x : F)) := by
  have hlen := rsChunk_length data i hi
  rw [rsEncShard]
  conv_rhs => rw [← map_getD_range_eq (rsChunk data i) 0, List.map_map, hlen]
  refine List.map_congr_left ?_
  intro p hp
  rw [lagEval_at_data_node _ p i hi, rsCol_chunks data p i hi]
  rfl

theorem chunks_flatten (l : List Nat) (ss : Nat) : ∀ n : Nat,
    ((List.range n).map fun i => (l.drop (i * ss)).take ss).flatten = l.take (n * ss) := by
  intro n
  induction n with
  | zero => simp
  | succ k ih =>
    rw [List.range_succ, List.map_append, List.flatten_append]
    simp only [List.map_cons, List.map_nil, List.flatten_cons, List.flatten_nil,
      List.append_nil]
    rw [ih, Nat.succ_mul, List.take_add]

/-- Join of the fourteen encoded shards recovers the data. -/
theorem rsJoin_encoded (data : List Nat) (hbytes : ∀ b ∈ data, b < 256) :
    rsJoin ((List.range 14).map fun i =>
        rsEncShard ((List.range 10).map (rsChunk data)) (rsShardSize data.length) i)
      data.length = Except.ok data := by
  have hdata : ∀ i, i < 10 →
      ((((List.range 14).map fun t =>
          rsEncShard ((List.range 10).map (rsChunk data)) (rsShardSize data.length) t).getD
        i []).map ZMod.val) = rsChunk data i := by
    intro i hi
    rw [getD_map_range _ _ (by omega : i < 14), rsEncShard_data data i hi, List.map_map]
    conv_rhs => rw [← List.map_id (rsChunk data i)]
    refine List.map_congr_left ?_
    intro x hx
    have hxlt := rsChunk_mem_lt data hbytes i x hx
    simp only [Function.comp_apply, id_eq]
    exact ZMod.val_natCast_of_lt hxlt
  have hflat : ((List.range 10).map fun i =>
      ((((List.range 14).map fun t =>
          rsEncShard ((List.range 10).map (rsChunk data)) (rsShardSize data.length) t).getD
        i []).map ZMod.val)).flatten = rsPadded data := by
    rw [List.map_congr_left fun i hi => hdata i (List.mem_range.mp hi)]
    have h2 := chunks_flatten (rsPadded data) (rsShardSize data.length) 10
    have h3 : (List.range 10).map (rsChunk data) =
        (List.range 10).map fun i =>
          ((rsPadded data).drop (i * rsShardSize data.length)).take
            (rsShardSize data.length) := rfl
    rw [h3, h2, ← rsPadded_length data, List.take_length]
  rw [rsJoin, hflat]
  have hlen : (rsPadded data).length = 10 * rsShardSize data.length := rsPadded_length data
  have hge : ¬ (rsPadded data).length < data.length := by
    simp only [hlen, rsShardSize]
    omega
  rw [if_neg hge]
  have : (rsPadded data).take data.length = data := by
    rw [rsPadded]
    exact List.take_left data _
  rw [this]

/-! ## Mask and repair lemmas -/

theorem rsMask_getD (encL : List (List F)) (S : Finset ℕ) {i : ℕ} (hi : i < 14) :
    (rsMask encL S).getD i none = if i ∈ S then some (encL.getD i []) else none :=
  getD_map_range _ _ hi

theorem rsPresent_mask (encL : List (List F)) (S : Finset ℕ) (hS : S ⊆ Finset.range 14) :
    rsPresent (rsMask encL S) = S := by
  ext i
  simp only [rsPresent, Finset.mem_filter, Finset.mem_range]
  constructor
  · rintro ⟨hi14, hsome⟩
    rw [rsMask_getD encL S hi14] at hsome
    by_cases hiS : i ∈ S
    · exact hiS
    · rw [if_neg hiS] at hsome
      simp at hsome
  · intro hiS
    have hi14 := Finset.mem_range.mp (hS hiS)
    refine ⟨hi14, ?_⟩
    rw [rsMask_getD encL S hi14, if_pos hiS]
    rfl

theorem rsMask_encoded_getD (d : List (List Nat)) (ss : Nat) (S : Finset ℕ) {i : ℕ}
    (hi : i < 14) :
    (rsMask ((List.range 14).map fun t => rsEncShard d ss t) S).getD i none =
      if i ∈ S then some (rsEncShard d ss i) else none := by
  rw [rsMask_getD _ _ hi]
  by_cases hiS : i ∈ S
  · rw [if_pos hiS, if_pos hiS, getD_map_range _ _ hi]
  · rw [if_neg hiS, if_neg hiS]

/-- Repairing a masked code word with at least 10 present shards rebuilds exactly the
14 encoded shards. -/
theorem rsRepair_encoded (d : List (List Nat)) (ss : Nat) (S : Finset ℕ)
    (hS : S ⊆ Finset.range 14) (hcard : 10 ≤ S.card) :
    rsRepair (rsMask ((List.range 14).map fun t => rsEncShard d ss t) S) =
      some ((List.range 14).map fun t => rsEncShard d ss t) := by
  have hpres : rsPresent (rsMask ((List.range 14).map fun t => rsEncShard d ss t) S) = S :=
    rsPresent_mask _ S hS
  have hget := fun {i} (hi : i < 14) => rsMask_encoded_getD d ss S hi
  have hgetS : ∀ i, i < 14 → i ∈ S →
      rsGet (rsMask ((List.range 14).map fun t => rsEncShard d ss t) S) i =
        rsEncShard d ss i := by
    intro i hi hiS
    rw [rsGet, hget hi, if_pos hiS]
    rfl
  have hfl : ∀ i, (i ∈ (List.range 14).filter
      (fun i => ((rsMask ((List.range 14).map fun t => rsEncShard d ss t) S).getD i
        none).isSome)) ↔ i ∈ S := by
    intro i
    rw [List.mem_filter, List.mem_range]
    constructor
    · rintro ⟨hi14, hsome⟩
      rw [hget hi14] at hsome
      by_cases hiS : i ∈ S
      · exact hiS
      · rw [if_neg hiS] at hsome
        simp at hsome
    · intro hiS
      have hi14 := Finset.mem_range.mp (hS hiS)
      refine ⟨hi14, ?_⟩
      rw [hget hi14, if_pos hiS]
      rfl
  rw [rsRepair, hpres, if_neg (by omega)]
  cases hh : ((List.range 14).filter
      (fun i => ((rsMask ((List.range 14).map fun t => rsEncShard d ss t) S).getD i
        none).isSome)).head? with
  | none =>
    exfalso
    have hempty := List.head?_eq_none_iff.mp hh
    obtain ⟨i0, hi0⟩ := Finset.card_pos.mp (by omega : 0 < S.card)
    have : i0 ∈ ([] : List ℕ) := by
      rw [← hempty]
      exact (hfl i0).mpr hi0
    simp at this
  | some i0 =>
    dsimp only
    have hi0S : i0 ∈ S := (hfl i0).mp (List.mem_of_mem_head? (Option.mem_def.mpr hh))
    have hi014 : i0 < 14 := Finset.mem_range.mp (hS hi0S)
    have hL : (rsGet (rsMask ((List.range 14).map fun t => rsEncShard d ss t) S) i0).length
        = ss := by
      rw [hgetS i0 hi014 hi0S, rsEncShard_length]
    have hall : ((List.range 14).filter
        (fun i => ((rsMask ((List.range 14).map fun t => rsEncShard d ss t) S).getD i
          none).isSome)).all
        (fun i => (rsGet (rsMask ((List.range 14).map fun t => rsEncShard d ss t) S)
          i).length == (rsGet (rsMask ((List.range 14).map fun t =>
            rsEncShard d ss t) S) i0).length) = true := by
      rw [List.all_eq_true]
      intro i hi
      have hiS := (hfl i).mp hi
      have hi14 := Finset.mem_range.mp (hS hiS)
      rw [hgetS i hi14 hiS, rsEncShard_length, hL]
      exact beq_self_eq_true ss
    rw [hall, if_pos rfl]
    congr 1
    refine List.map_congr_left ?_
    intro i hi
    have hi14 := List.mem_range.mp hi
    rw [hget hi14]
    by_cases hiS : i ∈ S
    · rw [if_pos hiS]
    · rw [if_neg hiS, hL, rsEncShard]
      refine List.map_congr_left ?_
      intro p hp
      have hp2 := List.mem_range.mp hp
      rw [lagEval_eq (Finset.range 10) (rsCol d p) ((i : ℕ) : F)]
      refine lagEval_recover S (fun j hj => Finset.mem_range.mp (hS hj)) hcard _
        (rsPoly_degree d p) _ ?_ _
      intro j hj
      have hj14 := Finset.mem_range.mp (hS hj)
      rw [hgetS j hj14 hj]
      exact rsEncShard_getD_eval d ss j p hp2

/-! ## Main shard codec theorems -/

/-- C1: for every byte sequence D (with size at most 1 MiB) that Encode splits into the
14 shards of ShardManager(10,4), and every subset S of the shard indices with at least
10 elements, Reconstruct on the shard array keeping shards[i] exactly for i in S (nil
otherwise), with originalSize the length of D, returns exactly D. -/
theorem shard_roundtrip (data : List Nat) (S : Finset ℕ) (encL : List (List F))
    (hbytes : ∀ b ∈ data, b < 256) (_hsize : data.length ≤ 1048576)
    (hS : S ⊆ Finset.range 14) (hcard : 10 ≤ S.card)
    (henc : ShardManager.Encode data = some encL) :
    ShardManager.Reconstruct (rsMask encL S) data.length = Except.ok data := by
  have hne : data.length ≠ 0 := by
    intro h0
    rw [ShardManager.Encode, rsSplit, if_pos h0] at henc
    exact Option.noConfusion henc
  rw [ShardManager.Encode, rsSplit_eq data hne] at henc
  simp only [Option.some.injEq] at henc
  subst henc
  have hget := fun {i} (hi : i < 14) =>
    rsMask_encoded_getD ((List.range 10).map (rsChunk data)) (rsShardSize data.length) S hi
  by_cases hv : rsVerify (rsMask ((List.range 14).map fun i =>
      rsEncShard ((List.range 10).map (rsChunk data)) (rsShardSize data.length) i) S) = true
  · -- all shards present and consistent: join the shard array directly
    have hap : rsAllPresent (rsMask ((List.range 14).map fun i =>
        rsEncShard ((List.range 10).map (rsChunk data)) (rsShardSize data.length) i) S)
        = true := by
      rw [rsVerify, Bool.and_eq_true] at hv
      exact hv.1
    have hconsts : ∀ i, i < 14 → i ∈ S := by
      intro i hi
      rw [rsAllPresent, List.all_eq_true] at hap
      have hsome := hap i (List.mem_range.mpr hi)
      rw [hget hi] at hsome
      by_cases hiS : i ∈ S
      · exact hiS
      · rw [if_neg hiS] at hsome
        simp at hsome
    rw [ShardManager.Reconstruct, if_pos hv]
    have hjoin : ((List.range 14).map fun i =>
        rsGet (rsMask ((List.range 14).map fun i =>
          rsEncShard ((List.range 10).map (rsChunk data)) (rsShardSize data.length) i) S) i)
        = (List.range 14).map fun i =>
          rsEncShard ((List.range 10).map (rsChunk data)) (rsShardSize data.length) i := by
      refine List.map_congr_left ?_
      intro i hi
      have hi14 := List.mem_range.mp hi
      rw [rsGet, hget hi14, if_pos (hconsts i hi14), Option.getD_some]
    rw [hjoin]
    exact rsJoin_encoded data hbytes
  · -- some shards missing: repair, re-verify, join
    rw [ShardManager.Reconstruct, if_neg hv,
      rsRepair_encoded ((List.range 10).map (rsChunk data)) (rsShardSize data.length) S hS
        hcard]
    dsimp only
    have hver2 : rsVerify (((List.range 14).map fun i =>
        rsEncShard ((List.range 10).map (rsChunk data)) (rsShardSize data.length) i).map
          some) = true := by
      refine rsVerify_encoded ((List.range 10).map (rsChunk data)) (rsShardSize data.length)
        _ ?_
      intro i hi
      rw [List.map_map, getD_map_range _ _ hi]
      rfl
    rw [hver2, if_pos rfl]
    exact rsJoin_encoded data hbytes

set_option maxRecDepth 4000000 in
/-- Witness for C1: the blob [1] encoded into 14 one-symbol shards survives the loss of
shards 7, 10, 11 and 13. -/
theorem shard_roundtrip_witness :
    ShardManager.Reconstruct (rsMask rtWitnessEnc rtWitnessSet) 1 = Except.ok [1] :=
  shard_roundtrip [1] rtWitnessSet rtWitnessEnc (by decide) (by decide) (by decide)
    (by decide) (by decide)

/-- C6: on any shard array in which 5 or more of the 14 shards are nil (at most 9
present), Reconstruct fails with the insufficient-shards error and produces no
partial output. -/
theorem shard_erasure_bound (shards : List (Option (List F))) (originalSize : Nat)
    (_hlen : shards.length = 14) (hcard : (rsPresent shards).card ≤ 9) :
    ShardManager.Reconstruct shards originalSize =
      Except.error RSError.insufficientShards := by
  have hnotall : rsAllPresent shards = false := by
    cases hap : rsAllPresent shards with
    | false => rfl
    | true =>
      exfalso
      have hall : rsPresent shards = Finset.range 14 := by
        ext i
        simp only [rsPresent, Finset.mem_filter, Finset.mem_range]
        constructor
        · exact fun h => h.1
        · intro hi
          refine ⟨hi, ?_⟩
          rw [rsAllPresent, List.all_eq_true] at hap
          exact hap i (List.mem_range.mpr hi)
      rw [hall, Finset.card_range] at hcard
      omega
  have hver : rsVerify shards = false := by
    rw [rsVerify, hnotall, Bool.false_and]
  have hrep : rsRepair shards = none := by
    rw [rsRepair, if_pos (by omega)]
  rw [ShardManager.Reconstruct, hver]
  simp only [Bool.false_eq_true, if_false, hrep]

/-- Witness for C6: the all-nil shard array is rejected with InsufficientShards. -/
theorem shard_erasure_bound_witness :
    ShardManager.Reconstruct (List.replicate 14 none) 5 =
      Except.error RSError.insufficientShards :=
  shard_erasure_bound (List.replicate 14 none) 5 (by decide) (by decide)

end DNet
